import Mathlib

/-
Verification of the segmentation engine of the audiobook plugin:
the chapter locator (`find_chapters` and friends, from extract_chapters.py),
the chunker (`split_text_smart`, from md_to_audiobook.py) and the
range-selection parser (`parse_chapter_arg`).

Text is modelled as `List Char`.  Python's `\s` character class, `str.strip`,
`str.isdigit` and `int(...)` are modelled over the ASCII repertoire (plus the
Cyrillic letters appearing in the chapter patterns); exotic Unicode
whitespace, Unicode digits and underscore digit separators accepted by the
CPython runtime are outside the model.
-/

set_option maxRecDepth 100000

abbrev Str := List Char

/-- Whitespace characters of the Python regex class `\s` (ASCII subset). -/
def isSpacePy (c : Char) : Bool :=
  c = ' ' || c = '\t' || c = '\n' || c = '\r' || c = '\x0b' || c = '\x0c'

/-- ASCII decimal digits, as matched by the regex class `\d` and `str.isdigit`. -/
def isDigitPy (c : Char) : Bool :=
  '0' ≤ c && c ≤ '9'

/-- Python `str.strip()`: drop leading and trailing whitespace. -/
def pyStrip (s : Str) : Str :=
  (((s.dropWhile isSpacePy).reverse).dropWhile isSpacePy).reverse

/-- Python slicing `text[a:b]` for `0 ≤ a, b` (empty when `a ≥ b`). -/
def pySlice (text : Str) (a b : ℕ) : Str :=
  (text.take b).drop a

/-- Value of a string of decimal digits, read in base 10. -/
def base10 (s : Str) : ℕ :=
  s.foldl (fun acc c => 10 * acc + (c.toNat - 48)) 0

/-- Python `int(token)` on a separator-free token: an optional sign followed
by at least one decimal digit; anything else raises `ValueError` (`none`). -/
def pyInt (s : Str) : Option ℤ :=
  match s with
  | '-' :: rest =>
      if !rest.isEmpty && rest.all isDigitPy then some (-(base10 rest : ℤ)) else none
  | '+' :: rest =>
      if !rest.isEmpty && rest.all isDigitPy then some ((base10 rest : ℤ)) else none
  | _ =>
      if !s.isEmpty && s.all isDigitPy then some ((base10 s : ℤ)) else none

/-- Separator characters of the token-splitting regex `[,\s]+` in
`parse_chapter_arg`. -/
def isSepCWS (c : Char) : Bool := c = ',' || isSpacePy c

/-- Fuel-driven worker for `re.split` on `[,\s]+`: each step consumes at
least one separator character, so fuel `length + 1` always suffices. -/
def pySplitCWSF : ℕ → Str → List Str
  | 0, s => [s]
  | fuel + 1, s =>
      let piece := s.takeWhile (fun c => !isSepCWS c)
      let rest := s.dropWhile (fun c => !isSepCWS c)
      match rest with
      | [] => [piece]
      | _ :: _ => piece :: pySplitCWSF fuel (rest.dropWhile isSepCWS)

/-- Python `re.split(r"[,\s]+", arg)`. -/
def pySplitCWS (s : Str) : List Str := pySplitCWSF (s.length + 1) s

/-- Python `range(a, b + 1)` as a list (empty when `a > b`). -/
def rangeList (a b : ℤ) : List ℤ :=
  (List.range (b + 1 - a).toNat).map (fun i => a + (i : ℤ))

/-- Python `part.split('-', 1)`: the text before the first dash and the text
after it. -/
def splitDash (s : Str) : Str × Str :=
  (s.takeWhile (fun c => c ≠ '-'), (s.dropWhile (fun c => c ≠ '-')).tail)

/-- Integers contributed by one token of the chapter argument: a range
`A-B` (empty when reversed, skipped when malformed) or a single integer
(skipped when malformed).  Source: the loop body of `parse_chapter_arg`. -/
def tokenInts (part : Str) : List ℤ :=
  if part.contains '-' then
    match pyInt (splitDash part).1, pyInt (splitDash part).2 with
    | some a, some b => rangeList a b
    | _, _ => []
  else
    match pyInt part with
    | some a => [a]
    | none => []

/-- All integers accumulated by `parse_chapter_arg` before the final
`sorted(set(...))`. -/
def rawChapters (arg : Str) : List ℤ :=
  (pySplitCWS arg).foldl (fun acc part0 =>
    let part := pyStrip part0
    if part.isEmpty then acc else acc ++ tokenInts part) []

/-- Python `sorted(set(l))`: distinct values, ascending. -/
def pySortedSet (l : List ℤ) : List ℤ := List.insertionSort (· ≤ ·) l.dedup

/-- The range-selection parser `parse_chapter_arg` of extract_chapters.py. -/
def parse_chapter_arg (arg : Str) : List ℤ := pySortedSet (rawChapters arg)

theorem pySortedSet_sorted (l : List ℤ) : (pySortedSet l).Sorted (· ≤ ·) :=
  List.sorted_insertionSort _ _

theorem pySortedSet_nodup (l : List ℤ) : (pySortedSet l).Nodup :=
  ((List.perm_insertionSort _ _).nodup_iff).mpr l.nodup_dedup

theorem pySortedSet_mem (l : List ℤ) (x : ℤ) : x ∈ pySortedSet l ↔ x ∈ l := by
  unfold pySortedSet
  rw [(List.perm_insertionSort _ _).mem_iff, List.mem_dedup]

/-- Sentence punctuation of the chunker's split pattern `([.!?]+\s+)`. -/
def isPunctPy (c : Char) : Bool := c = '.' || c = '!' || c = '?'

/-- Leftmost match of the sentence separator `[.!?]+\s+` in a string:
returns `(before, separator, after)`.  A run of punctuation not followed by
whitespace cannot match (shortening the greedy `[.!?]+` only exposes
another punctuation character, never whitespace), so the scan advances. -/
def findSep : Str → Option (Str × Str × Str)
  | [] => none
  | c :: rest =>
      if isPunctPy c then
        let after := (c :: rest).dropWhile isPunctPy
        let ws := after.takeWhile isSpacePy
        if ws.isEmpty then
          (findSep rest).map (fun pse => (c :: pse.1, pse.2.1, pse.2.2))
        else
          some ([], (c :: rest).takeWhile isPunctPy ++ ws, after.dropWhile isSpacePy)
      else
        (findSep rest).map (fun pse => (c :: pse.1, pse.2.1, pse.2.2))

/-- Fuel-driven worker for `re.split(r"([.!?]+\s+)", para)` with the
separators kept (the pattern is a capture group).  Every separator holds at
least one punctuation and one whitespace character, so each step consumes at
least two characters and fuel `length + 1` always suffices. -/
def splitSentF : ℕ → Str → List Str
  | 0, s => [s]
  | fuel + 1, s =>
      match findSep s with
      | none => [s]
      | some (p, sep, rest) => p :: sep :: splitSentF fuel rest

/-- Python `re.split(r"([.!?]+\s+)", para)`. -/
def splitSent (s : Str) : List Str := splitSentF (s.length + 1) s

/-- The chunker's pairing loop `for i in range(0, len(sentences), 2)`:
re-attach each captured separator to the sentence before it. -/
def pairUp : List Str → List Str
  | [] => []
  | [x] => [x]
  | x :: y :: rest => (x ++ y) :: pairUp rest

/-- The sentence-like units an oversized paragraph is split into. -/
def sentenceUnits (p : Str) : List Str := pairUp (splitSent p)

/-- Leftmost match of the paragraph separator `\n\n+`:
returns `(before, separator, after)`. -/
def findParaSep : Str → Option (Str × Str × Str)
  | [] => none
  | c :: rest =>
      if c = '\n' ∧ rest.head? = some '\n' then
        some ([], (c :: rest).takeWhile (fun d => d = '\n'),
              (c :: rest).dropWhile (fun d => d = '\n'))
      else
        (findParaSep rest).map (fun pse => (c :: pse.1, pse.2.1, pse.2.2))

/-- Fuel-driven worker for `re.split(r"\n\n+", text)` (separators dropped).
Each separator holds at least two characters, so fuel `length + 1`
always suffices. -/
def splitParasF : ℕ → Str → List Str
  | 0, s => [s]
  | fuel + 1, s =>
      match findParaSep s with
      | none => [s]
      | some (p, _, rest) => p :: splitParasF fuel rest

/-- Python `re.split(r"\n\n+", text)`: the paragraphs of the input. -/
def splitParas (s : Str) : List Str := splitParasF (s.length + 1) s

/-- The chunker's loop state: emitted chunks, the running buffer
`current_chunk` and its character count `current_chars`. -/
structure ChunkState where
  chunks : List Str
  current : Str
  cc : ℕ

/-- Python `if current_chunk: chunks.append(current_chunk.strip())`. -/
def flushChunks (st : ChunkState) : List Str :=
  if st.current.isEmpty then st.chunks else st.chunks ++ [pyStrip st.current]

/-- One iteration of the chunker's inner sentence loop. -/
def stepSent (max : ℤ) (st : ChunkState) (s : Str) : ChunkState :=
  if (st.cc : ℤ) + s.length > max then
    { chunks := flushChunks st, current := s, cc := s.length }
  else
    { chunks := st.chunks, current := st.current ++ s, cc := st.cc + s.length }

/-- One iteration of the chunker's outer paragraph loop. -/
def stepPara (max : ℤ) (st : ChunkState) (para0 : Str) : ChunkState :=
  let para := pyStrip para0
  if para.isEmpty then st
  else if (para.length : ℤ) > max then
    let st1 : ChunkState :=
      if st.current.isEmpty then st
      else { chunks := st.chunks ++ [pyStrip st.current], current := [], cc := 0 }
    (sentenceUnits para).foldl (stepSent max) st1
  else if (st.cc : ℤ) + para.length > max then
    { chunks := flushChunks st, current := para, cc := para.length }
  else if st.current.isEmpty then
    { chunks := st.chunks, current := para, cc := para.length }
  else
    { chunks := st.chunks, current := st.current ++ '\n' :: '\n' :: para,
      cc := st.cc + 2 + para.length }

/-- The chunker `split_text_smart` of md_to_audiobook.py. -/
def split_text_smart (text : Str) (max : ℤ) : List Str :=
  flushChunks ((splitParas text).foldl (stepPara max) ⟨[], [], 0⟩)

/-- The stripped, non-empty paragraphs the chunker actually processes. -/
def processedParas (text : Str) : List Str :=
  ((splitParas text).map pyStrip).filter (fun p => !p.isEmpty)

/-- Every sentence-like unit of every processed paragraph of the input. -/
def allUnits (text : Str) : List Str :=
  ((processedParas text).map sentenceUnits).flatten

/-- The sentence-like units of the input longer than the budget: the only
units allowed to overflow a chunk. -/
def oversizedUnits (text : Str) (max : ℤ) : List Str :=
  (allUnits text).filter (fun s => max < (s.length : ℤ))

/-- Uppercase-to-lowercase pairs used by case-insensitive matching: ASCII
letters plus the Cyrillic letters of the word "Глава". -/
def lowerPairs : List (Char × Char) :=
  [('A','a'),('B','b'),('C','c'),('D','d'),('E','e'),('F','f'),('G','g'),
   ('H','h'),('I','i'),('J','j'),('K','k'),('L','l'),('M','m'),('N','n'),
   ('O','o'),('P','p'),('Q','q'),('R','r'),('S','s'),('T','t'),('U','u'),
   ('V','v'),('W','w'),('X','x'),('Y','y'),('Z','z'),
   ('Г','г'),('Л','л'),('А','а'),('В','в')]

/-- Case folding for `re.IGNORECASE` comparisons (restricted to the letters
the chapter patterns can mention). -/
def foldCase (c : Char) : Char :=
  match lowerPairs.lookup c with
  | some l => l
  | none => c

/-- Lowercase-to-uppercase ASCII pairs, for Python `str.upper()` as used by
`roman_to_int` (only the Roman letters matter there). -/
def upperPairs : List (Char × Char) :=
  [('a','A'),('b','B'),('c','C'),('d','D'),('e','E'),('f','F'),('g','G'),
   ('h','H'),('i','I'),('j','J'),('k','K'),('l','L'),('m','M'),('n','N'),
   ('o','O'),('p','P'),('q','Q'),('r','R'),('s','S'),('t','T'),('u','U'),
   ('v','V'),('w','W'),('x','X'),('y','Y'),('z','Z')]

/-- Python `str.upper()` (ASCII part; enough for Roman numeral values,
which are 0 on every non-Roman character anyway). -/
def toUpperPy (c : Char) : Char :=
  match upperPairs.lookup c with
  | some u => u
  | none => c

/-- Symbol values of `roman_to_int` (`roman_values.get(char, 0)`). -/
def romanVal (c : Char) : ℤ :=
  if c = 'I' then 1 else if c = 'V' then 5 else if c = 'X' then 10
  else if c = 'L' then 50 else if c = 'C' then 100 else if c = 'D' then 500
  else if c = 'M' then 1000 else 0

/-- One step of `roman_to_int`'s loop: the accumulator carries
`(total, prev)` and the value is subtracted exactly when it is smaller than
the value of the previously seen (right-adjacent) character. -/
def romanFold (acc : ℤ × ℤ) (c : Char) : ℤ × ℤ :=
  let v := romanVal c
  (if v < acc.2 then acc.1 - v else acc.1 + v, v)

/-- The Roman numeral converter `roman_to_int` of extract_chapters.py. -/
def roman_to_int (s : Str) : ℤ :=
  (((s.map toUpperPy).reverse).foldl romanFold (0, 0)).1

/-- Modelled from the spec: the Roman-numeral algorithm as the specification
words it, subtracting a character's value when it is smaller than the
running MAXIMUM value seen so far from the right (the accumulator carries
`(total, maxSoFar)`). -/
def romanSpecMaxFold (acc : ℤ × ℤ) (c : Char) : ℤ × ℤ :=
  let v := romanVal c
  (if v < acc.2 then acc.1 - v else acc.1 + v, max acc.2 v)

/-- Modelled from the spec: Roman resolution by the running-maximum rule. -/
def romanSpecMax (s : Str) : ℤ :=
  (((s.map toUpperPy).reverse).foldl romanSpecMaxFold (0, 0)).1

/-- The numeral resolver `parse_chapter_number` of extract_chapters.py. -/
def parse_chapter_number (s : Str) : ℤ :=
  let t := pyStrip s
  if !t.isEmpty && t.all isDigitPy then (base10 t : ℤ) else roman_to_int t

/-- The folded word "глава" of the Russian chapter patterns. -/
def wordGlava : Str := "глава".toList

/-- The folded word "chapter" of the English chapter patterns. -/
def wordChapter : Str := "chapter".toList

/-- Case-insensitive test that `w` (already folded) is what `s` starts with. -/
def matchCI (w : Str) (s : Str) : Bool :=
  (s.take w.length).map foldCase == w

/-- The Roman character class `[IVXLCDM]` under `re.IGNORECASE`. -/
def isRomanCI (c : Char) : Bool :=
  ("ivxlcdm".toList).contains (foldCase c)

/-- Trailing characters of the class `[\s\.\:\-]` closing patterns 1 and 2. -/
def isTrailPy (c : Char) : Bool :=
  isSpacePy c || c = '.' || c = ':' || c = '-'

/-- The anchor `(?:^|\n)` under `re.MULTILINE`, at the position whose
remaining text is `s` and whose preceding character is `prev` (`none` at the
start of the text): succeeds as a zero-width assertion at the text start or
after a newline, or by consuming the newline standing at the position.
Both branches continue into a greedy `\s*` in every pattern, so the two
possibilities collapse to the offset computed here.  Returns the number of
characters consumed and the remaining text. -/
def anchorLocal (prev : Option Char) (s : Str) : Option (ℕ × Str) :=
  if prev = none ∨ prev = some '\n' then some (0, s)
  else
    match s with
    | '\n' :: t => some (1, t)
    | _ => none

/-- The number token `(\d+|[IVXLCDM]+)`: greedy digits first, else a greedy
run of Roman characters. -/
def takeNumToken (s : Str) : Option Str :=
  let d := s.takeWhile isDigitPy
  if !d.isEmpty then some d
  else
    let r := s.takeWhile isRomanCI
    if !r.isEmpty then some r else none

/-- Matcher for the word patterns (families 1 and 2):
`(?:^|\n)\s*(WORD)\s+(\d+|[IVXLCDM]+)[\s\.\:\-]*` at the position whose
remaining text is `s`.  Returns the number of characters consumed and the
captured number token. -/
def matchWordPat (word : Str) (prev : Option Char) (s : Str) : Option (ℕ × Str) :=
  match anchorLocal prev s with
  | none => none
  | some (a, s0) =>
      let i := (s0.takeWhile isSpacePy).length
      let s1 := s0.drop i
      if matchCI word s1 then
        let s2 := s1.drop word.length
        let j := (s2.takeWhile isSpacePy).length
        if j = 0 then none
        else
          let s3 := s2.drop j
          match takeNumToken s3 with
          | none => none
          | some tok =>
              let s4 := s3.drop tok.length
              let k := (s4.takeWhile isTrailPy).length
              some (a + i + word.length + j + tok.length + k, tok)
      else none

/-- Matcher for the markdown pattern (family 3):
`(?:^|\n)\s*#{1,3}\s*(Глава|Chapter|ГЛАВА|CHAPTER)\s+(\d+|[IVXLCDM]+)`.
A run of more than three hash marks cannot match: the shrunken greedy
`#{1,3}` is always followed by another hash mark. -/
def matchHashPat (prev : Option Char) (s : Str) : Option (ℕ × Str) :=
  match anchorLocal prev s with
  | none => none
  | some (a, s0) =>
      let i := (s0.takeWhile isSpacePy).length
      let s1 := s0.drop i
      let h := (s1.takeWhile (fun c => c = '#')).length
      if h = 0 || 3 < h then none
      else
        let s2 := s1.drop h
        let j := (s2.takeWhile isSpacePy).length
        let s3 := s2.drop j
        let wOpt : Option ℕ :=
          if matchCI wordGlava s3 then some wordGlava.length
          else if matchCI wordChapter s3 then some wordChapter.length
          else none
        match wOpt with
        | none => none
        | some w =>
            let s4 := s3.drop w
            let m := (s4.takeWhile isSpacePy).length
            if m = 0 then none
            else
              match takeNumToken (s4.drop m) with
              | none => none
              | some tok => some (a + i + h + j + w + m + tok.length, tok)

/-- Matcher for the bare numeric pattern (family 4):
`(?:^|\n)\s*(\d+)\.\s+`. -/
def matchNumPat (prev : Option Char) (s : Str) : Option (ℕ × Str) :=
  match anchorLocal prev s with
  | none => none
  | some (a, s0) =>
      let i := (s0.takeWhile isSpacePy).length
      let s1 := s0.drop i
      let d := s1.takeWhile isDigitPy
      if d.isEmpty then none
      else
        match s1.drop d.length with
        | '.' :: s2 =>
            let j := (s2.takeWhile isSpacePy).length
            if j = 0 then none else some (a + i + d.length + 1 + j, d)
        | _ => none

/-- Advance the scanning window by `n` characters, tracking the character
preceding the new position. -/
def skipChars : Option Char → Str → ℕ → Option Char × Str
  | prev, s, 0 => (prev, s)
  | prev, [], _ + 1 => (prev, [])
  | _, c :: t, n + 1 => skipChars (some c) t n

/-- Fuel-driven `re.finditer`: scan left to right for the earliest match,
yield it, continue from its end (every match consumes at least one
character).  `prev` is the character before the current position, `s` the
remaining text and `p` the absolute position.  Positions advance by at
least one per step, so fuel `length + 1` always suffices. -/
def findMatchesF (m : Option Char → Str → Option (ℕ × Str)) :
    ℕ → Option Char → Str → ℕ → List (ℕ × ℕ × Str)
  | 0, _, _, _ => []
  | fuel + 1, prev, s, p =>
      match s with
      | [] => []
      | c :: t =>
          match m prev s with
          | some (len, tok) =>
              let next := skipChars prev s len
              (p, p + len, tok) :: findMatchesF m fuel next.1 next.2 (p + len)
          | none => findMatchesF m fuel (some c) t (p + 1)

/-- All matches of one pattern over the text, in position order. -/
def findMatches (m : Option Char → Str → Option (ℕ × Str)) (text : Str) :
    List (ℕ × ℕ × Str) :=
  findMatchesF m (text.length + 1) none text 0

/-- A located chapter candidate `(chapter_number, start_pos, end_pos)`. -/
abbrev Chap := ℤ × ℕ × ℕ

/-- All raw matches of the four pattern families, pattern by pattern, as
collected by the loop of `find_chapters`. -/
def patMatches (text : Str) : List (ℕ × ℕ × Str) :=
  findMatches (matchWordPat wordGlava) text ++
  findMatches (matchWordPat wordChapter) text ++
  findMatches matchHashPat text ++
  findMatches matchNumPat text

/-- The candidate markers of `find_chapters`: every match whose number token
resolves to a positive integer. -/
def candidates (text : Str) : List Chap :=
  (patMatches text).filterMap (fun m =>
    let n := parse_chapter_number m.2.2
    if 0 < n then some (n, m.1, m.2.1) else none)

/-- Comparison by `start_pos`, the key of both sorts in `find_chapters`. -/
def byStart (a b : Chap) : Prop := a.2.1 ≤ b.2.1

instance : DecidableRel byStart :=
  fun a b => inferInstanceAs (Decidable (a.2.1 ≤ b.2.1))

instance : IsTotal Chap byStart := ⟨fun a b => Nat.le_total a.2.1 b.2.1⟩

instance : IsTrans Chap byStart := ⟨fun _ _ _ h1 h2 => Nat.le_trans h1 h2⟩

/-- The candidates sorted by position (`sorted(chapters, key=lambda x: x[1])`). -/
def sortedCands (text : Str) : List Chap :=
  List.insertionSort byStart (candidates text)

/-- Start of the next candidate, or the document length for the last one. -/
def nextStartOf (text : Str) (rest : List Chap) : ℕ :=
  match rest with
  | [] => text.length
  | d :: _ => d.2.1

/-- The TOC filter of `find_chapters`: keep a candidate exactly when the
stripped text between its end and the next candidate's start (or the end of
the document) is longer than 200 characters. -/
def tocFilter (text : Str) : List Chap → List Chap
  | [] => []
  | c :: rest =>
      if 200 < (pyStrip (pySlice text c.2.2 (nextStartOf text rest))).length then
        c :: tocFilter text rest
      else
        tocFilter text rest

/-- The candidates surviving the TOC filter (`valid_chapters`). -/
def validChapters (text : Str) : List Chap :=
  tocFilter text (sortedCands text)

/-- Python dict assignment `d[k] = v` on an insertion-ordered association
list: replace the value at an existing key, else append. -/
def dictSet (d : List (ℤ × Chap)) (k : ℤ) (v : Chap) : List (ℤ × Chap) :=
  match d with
  | [] => [(k, v)]
  | (k1, v1) :: rest =>
      if k1 = k then (k1, v) :: rest else (k1, v1) :: dictSet rest k v

/-- The dedup dict of `find_chapters`: `seen[ch[0]] = ch` over the valid
chapters, later occurrences overwriting earlier ones. -/
def seenFold (l : List Chap) : List (ℤ × Chap) :=
  l.foldl (fun d ch => dictSet d ch.1 ch) []

/-- The chapter locator `find_chapters` of extract_chapters.py. -/
def find_chapters (text : Str) : List Chap :=
  List.insertionSort byStart ((seenFold (validChapters text)).map (fun kv => kv.2))

/-- Worker for the `chapter_bounds` construction of `extract_chapters`:
each span's end is the next span's start, the last one ends at `fin`. -/
def boundsAux (fin : ℕ) : List Chap → List Chap
  | [] => []
  | [c] => [(c.1, c.2.1, fin)]
  | c :: d :: rest => (c.1, c.2.1, d.2.1) :: boundsAux fin (d :: rest)

/-- The `chapter_bounds` of `extract_chapters`, as an insertion-ordered
list (its keys, the chapter numbers, are unique after dedup). -/
def chapterBoundsList (text : Str) : List Chap :=
  boundsAux text.length (find_chapters text)

/-- Dict lookup `num in chapter_bounds` / `chapter_bounds[num]`. -/
def lookupNum (l : List Chap) (n : ℤ) : Option (ℕ × ℕ) :=
  match l with
  | [] => none
  | c :: rest => if c.1 = n then some c.2 else lookupNum rest n

/-- Python `sorted(chapter_nums)` (duplicates kept). -/
def pySortedInt (l : List ℤ) : List ℤ := List.insertionSort (· ≤ ·) l

/-- The extraction loop of `extract_chapters`: walk the requested numbers in
ascending order, collecting stripped chapter texts and, separately, the
numbers whose absence is reported by a warning. -/
def extractLoop (text : Str) (bounds : List Chap) :
    List Str × List ℤ → List ℤ → List Str × List ℤ
  | acc, [] => acc
  | acc, n :: rest =>
      match lookupNum bounds n with
      | some se =>
          extractLoop text bounds
            (acc.1 ++ [pyStrip (pySlice text se.1 se.2)], acc.2) rest
      | none => extractLoop text bounds (acc.1, acc.2 ++ [n]) rest

/-- The blank-line joiner `'\n\n'.join(...)`. -/
def sepBlank : Str := ['\n', '\n']

/-- The extractor `extract_chapters` of extract_chapters.py.  The effect of
each `Warning: Chapter N not found` message is modelled as the second
component; with no chapters located at all the full text is returned (after
a general warning) and no per-number warning is emitted. -/
def extract_chapters (text : Str) (nums : List ℤ) : Str × List ℤ :=
  if find_chapters text = [] then (text, [])
  else
    let r := extractLoop text (chapterBoundsList text) ([], []) (pySortedInt nums)
    (sepBlank.intercalate r.1, r.2)

/-- The stripped chapter texts of the requested chapters that were found,
in ascending request order. -/
def extractedPieces (text : Str) (nums : List ℤ) : List Str :=
  (pySortedInt nums).filterMap (fun n =>
    (lookupNum (chapterBoundsList text) n).map
      (fun se => pyStrip (pySlice text se.1 se.2)))

/-- The requested chapter numbers reported missing, in ascending order. -/
def missingNums (text : Str) (nums : List ℤ) : List ℤ :=
  (pySortedInt nums).filter (fun n => (lookupNum (chapterBoundsList text) n).isNone)

/-- The requested chapter numbers that were found, in ascending order. -/
def foundNums (text : Str) (nums : List ℤ) : List ℤ :=
  (pySortedInt nums).filter (fun n => (lookupNum (chapterBoundsList text) n).isSome)

/-- Concrete text with a chapter heading followed by `k` characters of
content: the TOC-filter boundary fixture. -/
def tWin (k : ℕ) : Str := ("Chapter 1\n").toList ++ List.replicate k 'a'

/-- Concrete text with two real chapters, each followed by 201 characters
of content. -/
def twoChapText : Str :=
  ("Chapter 1\n").toList ++ List.replicate 201 'a' ++
  ("\nChapter 2\n").toList ++ List.replicate 201 'b'

theorem foldlRec {α β : Type} (f : β → α → β) (P : β → Prop) :
    ∀ (l : List α) (init : β), P init →
      (∀ st x, x ∈ l → P st → P (f st x)) → P (l.foldl f init)
  | [], _, h0, _ => h0
  | x :: xs, init, h0, hstep =>
      foldlRec f P xs (f init x) (hstep init x (List.mem_cons_self x xs) h0)
        (fun st y hy => hstep st y (List.mem_cons_of_mem x hy))

theorem dropWhileHeadNot (p : Char → Bool) :
    ∀ (l : Str) (c : Char), (l.dropWhile p).head? = some c → p c = false := by
  intro l
  induction l with
  | nil => intro c h; simp at h
  | cons a t ih =>
      intro c h
      by_cases ha : p a
      · rw [List.dropWhile_cons_of_pos ha] at h
        exact ih c h
      · rw [List.dropWhile_cons_of_neg ha] at h
        simp at h
        cases hpa : p a with
        | true => exact absurd hpa ha
        | false => rw [← h]; exact hpa

theorem dropWhileEqSelf (p : Char → Bool) (l : Str)
    (h : ∀ c, l.head? = some c → p c = false) : l.dropWhile p = l := by
  cases l with
  | nil => rfl
  | cons a t =>
      have ha : p a = false := h a rfl
      simp [List.dropWhile_cons, ha]

theorem stripSuffixEq (s : Str) :
    s.dropWhile isSpacePy =
      pyStrip s ++ (((s.dropWhile isSpacePy).reverse).takeWhile isSpacePy).reverse := by
  unfold pyStrip
  rw [← List.reverse_append, List.takeWhile_append_dropWhile, List.reverse_reverse]

theorem pyStrip_decomp (s : Str) :
    ∃ pre suf, s = pre ++ pyStrip s ++ suf ∧
      (∀ c ∈ pre, isSpacePy c = true) ∧ (∀ c ∈ suf, isSpacePy c = true) := by
  refine ⟨s.takeWhile isSpacePy,
    (((s.dropWhile isSpacePy).reverse).takeWhile isSpacePy).reverse, ?_, ?_, ?_⟩
  · conv_lhs => rw [← List.takeWhile_append_dropWhile (p := isSpacePy) (l := s),
      stripSuffixEq s]
    rw [List.append_assoc]
  · intro c hc
    exact List.mem_takeWhile_imp hc
  · intro c hc
    rw [List.mem_reverse] at hc
    exact List.mem_takeWhile_imp hc

theorem pyStrip_length_le (s : Str) : (pyStrip s).length ≤ s.length := by
  obtain ⟨pre, suf, hs, _, _⟩ := pyStrip_decomp s
  conv_rhs => rw [hs]
  simp
  omega

theorem pyStrip_subset (s : Str) : ∀ c ∈ pyStrip s, c ∈ s := by
  obtain ⟨pre, suf, hs, _, _⟩ := pyStrip_decomp s
  intro c hc
  rw [hs]
  simp [hc]

theorem pyStrip_nil_of_all_space (s : Str) (h : ∀ c ∈ s, isSpacePy c = true) :
    pyStrip s = [] := by
  unfold pyStrip
  have h1 : s.dropWhile isSpacePy = [] := by
    rw [List.dropWhile_eq_nil_iff]
    exact h
  rw [h1]
  rfl

theorem pyStrip_all_space_of_nil (s : Str) (h : pyStrip s = []) :
    ∀ c ∈ s, isSpacePy c = true := by
  obtain ⟨pre, suf, hs, hpre, hsuf⟩ := pyStrip_decomp s
  rw [h] at hs
  intro c hc
  rw [hs] at hc
  simp at hc
  rcases hc with h1 | h1
  · exact hpre c h1
  · exact hsuf c h1

theorem pyStrip_ne_nil (s : Str) (c : Char) (hc : c ∈ s) (hws : isSpacePy c = false) :
    pyStrip s ≠ [] := by
  intro h
  have := pyStrip_all_space_of_nil s h c hc
  rw [hws] at this
  exact Bool.false_ne_true this

theorem pyStrip_head_not_space (s : Str) :
    ∀ c, (pyStrip s).head? = some c → isSpacePy c = false := by
  intro c hc
  apply dropWhileHeadNot isSpacePy s c
  rw [stripSuffixEq s]
  cases hst : pyStrip s with
  | nil => rw [hst] at hc; simp at hc
  | cons a t =>
      rw [hst] at hc
      simp at hc
      simp [hc]

theorem pyStrip_getLast_not_space (s : Str) :
    ∀ c, (pyStrip s).getLast? = some c → isSpacePy c = false := by
  intro c hc
  have h2 : ((pyStrip s).reverse).head? = some c := by
    rw [List.head?_reverse]
    exact hc
  unfold pyStrip at h2
  rw [List.reverse_reverse] at h2
  exact dropWhileHeadNot isSpacePy _ c h2

theorem pyStrip_idem (s : Str) : pyStrip (pyStrip s) = pyStrip s := by
  have h1 : (pyStrip s).dropWhile isSpacePy = pyStrip s := by
    apply dropWhileEqSelf
    exact pyStrip_head_not_space s
  show ((((pyStrip s).dropWhile isSpacePy).reverse).dropWhile isSpacePy).reverse = pyStrip s
  rw [h1]
  have h2 : ((pyStrip s).reverse).dropWhile isSpacePy = (pyStrip s).reverse := by
    apply dropWhileEqSelf
    intro c hc
    rw [List.head?_reverse] at hc
    exact pyStrip_getLast_not_space s c hc
  rw [h2, List.reverse_reverse]

theorem punctNotSpace (c : Char) (h : isPunctPy c = true) : isSpacePy c = false := by
  unfold isPunctPy at h
  simp at h
  rcases h with (h | h) | h <;> subst h <;> decide

theorem findSep_some :
    ∀ (s p sep r : Str), findSep s = some (p, sep, r) →
      s = p ++ sep ++ r ∧ (∃ c ∈ sep, isPunctPy c = true) ∧
        (∀ c, r.head? = some c → isSpacePy c = false) := by
  intro s
  induction s with
  | nil => intro p sep r h; simp [findSep] at h
  | cons a t ih =>
      intro p sep r h
      unfold findSep at h
      by_cases ha : isPunctPy a
      · rw [if_pos ha] at h
        by_cases hws : ((List.dropWhile isPunctPy (a :: t)).takeWhile isSpacePy).isEmpty
        · rw [if_pos hws] at h
          rcases hfs : findSep t with _ | ⟨p1, sep1, r1⟩
          · rw [hfs] at h; simp at h
          · rw [hfs] at h
            simp at h
            obtain ⟨h1, h2, h3⟩ := h
            obtain ⟨ht, hsep, hr⟩ := ih p1 sep1 r1 hfs
            subst h1 h2 h3
            refine ⟨by simp [ht], hsep, hr⟩
        · rw [if_neg hws] at h
          simp at h
          obtain ⟨h1, h2, h3⟩ := h
          subst h1
          refine ⟨?_, ?_, ?_⟩
          · rw [← h2, ← h3]
            simp only [List.nil_append, List.append_assoc]
            conv_rhs => rw [List.takeWhile_append_dropWhile (p := isSpacePy)
                (l := List.dropWhile isPunctPy (a :: t)),
              List.takeWhile_append_dropWhile (p := isPunctPy) (l := a :: t)]
          · rw [← h2]
            refine ⟨a, ?_, ha⟩
            apply List.mem_append_left
            rw [List.takeWhile_cons_of_pos ha]
            exact List.mem_cons_self _ _
          · rw [← h3]
            intro c hc
            exact dropWhileHeadNot isSpacePy _ c hc
      · rw [if_neg ha] at h
        rcases hfs : findSep t with _ | ⟨p1, sep1, r1⟩
        · rw [hfs] at h; simp at h
        · rw [hfs] at h
          simp at h
          obtain ⟨h1, h2, h3⟩ := h
          obtain ⟨ht, hsep, hr⟩ := ih p1 sep1 r1 hfs
          subst h1 h2 h3
          refine ⟨by simp [ht], hsep, hr⟩

theorem pairUpSplitSentNonWS (fuel : ℕ) :
    ∀ (s : Str), (∀ c, s.head? = some c → isSpacePy c = false) →
      ∀ u ∈ pairUp (splitSentF fuel s), u ≠ [] →
        ∃ ch ∈ u, isSpacePy ch = false := by
  induction fuel with
  | zero =>
      intro s hs u hu hne
      simp [splitSentF, pairUp] at hu
      subst hu
      cases u with
      | nil => exact absurd rfl hne
      | cons a t => exact ⟨a, List.mem_cons_self a t, hs a rfl⟩
  | succ fuel ih =>
      intro s hs u hu hne
      rw [splitSentF] at hu
      rcases hfs : findSep s with _ | ⟨p, sep, r⟩
      · rw [hfs] at hu
        simp [pairUp] at hu
        subst hu
        cases u with
        | nil => exact absurd rfl hne
        | cons a t => exact ⟨a, List.mem_cons_self a t, hs a rfl⟩
      · rw [hfs] at hu
        simp only [pairUp] at hu
        obtain ⟨hdec, hsep, hr⟩ := findSep_some s p sep r hfs
        rcases List.mem_cons.mp hu with hu1 | hu2
        · obtain ⟨c, hc, hcp⟩ := hsep
          refine ⟨c, ?_, punctNotSpace c hcp⟩
          rw [hu1]
          exact List.mem_append_right p hc
        · exact ih r hr u hu2 hne

theorem sentenceUnitsNonWS (p : Str)
    (hp : ∀ c, p.head? = some c → isSpacePy c = false) :
    ∀ u ∈ sentenceUnits p, u ≠ [] → ∃ ch ∈ u, isSpacePy ch = false :=
  pairUpSplitSentNonWS (p.length + 1) p hp

theorem findParaSep_some :
    ∀ (s p sep r : Str), findParaSep s = some (p, sep, r) → s = p ++ sep ++ r := by
  intro s
  induction s with
  | nil => intro p sep r h; simp [findParaSep] at h
  | cons a t ih =>
      intro p sep r h
      unfold findParaSep at h
      by_cases ha : a = '\n' ∧ t.head? = some '\n'
      · rw [if_pos ha] at h
        simp at h
        obtain ⟨h1, h2, h3⟩ := h
        subst h1
        rw [← h2, ← h3]
        simp only [List.nil_append]
        rw [List.takeWhile_append_dropWhile]
      · rw [if_neg ha] at h
        rcases hfs : findParaSep t with _ | ⟨p1, sep1, r1⟩
        · rw [hfs] at h; simp at h
        · rw [hfs] at h
          simp at h
          obtain ⟨h1, h2, h3⟩ := h
          have ht := ih p1 sep1 r1 hfs
          subst h1 h2 h3
          simp [ht]

theorem splitParasSub (fuel : ℕ) :
    ∀ (s : Str), ∀ piece ∈ splitParasF fuel s, ∀ c ∈ piece, c ∈ s := by
  induction fuel with
  | zero =>
      intro s piece hp c hc
      simp [splitParasF] at hp
      rw [hp] at hc
      exact hc
  | succ fuel ih =>
      intro s piece hp c hc
      rw [splitParasF] at hp
      rcases hfs : findParaSep s with _ | ⟨p, sep, r⟩
      · rw [hfs] at hp
        simp at hp
        rw [hp] at hc
        exact hc
      · rw [hfs] at hp
        have hdec := findParaSep_some s p sep r hfs
        rcases List.mem_cons.mp hp with h1 | h2
        · rw [hdec]
          rw [h1] at hc
          simp [hc]
        · have := ih r piece h2 c hc
          rw [hdec]
          simp [this]

theorem stripMemProcessed (text : Str) (para0 : Str) (h0 : para0 ∈ splitParas text)
    (hne : (pyStrip para0).isEmpty = false) :
    pyStrip para0 ∈ processedParas text := by
  unfold processedParas
  rw [List.mem_filter]
  constructor
  · exact List.mem_map_of_mem pyStrip h0
  · rw [hne]; rfl

theorem unitsMemAllUnits (text : Str) (p : Str) (hp : p ∈ processedParas text) :
    ∀ u ∈ sentenceUnits p, u ∈ allUnits text := by
  intro u hu
  unfold allUnits
  rw [List.mem_flatten]
  exact ⟨sentenceUnits p, List.mem_map_of_mem sentenceUnits hp, hu⟩

theorem processedHeadNotSpace (text : Str) (p : Str) (hp : p ∈ processedParas text) :
    ∀ c, p.head? = some c → isSpacePy c = false := by
  unfold processedParas at hp
  rw [List.mem_filter] at hp
  obtain ⟨hmem, _⟩ := hp
  rw [List.mem_map] at hmem
  obtain ⟨p0, _, hps⟩ := hmem
  intro c hc
  rw [← hps] at hc
  exact pyStrip_head_not_space p0 c hc

theorem allUnitsNonWS (text : Str) :
    ∀ u ∈ allUnits text, u ≠ [] → ∃ ch ∈ u, isSpacePy ch = false := by
  intro u hu hne
  unfold allUnits at hu
  rw [List.mem_flatten] at hu
  obtain ⟨l, hl, hul⟩ := hu
  rw [List.mem_map] at hl
  obtain ⟨p, hp, hlp⟩ := hl
  rw [← hlp] at hul
  exact sentenceUnitsNonWS p (processedHeadNotSpace text p hp) u hul hne

/-- The amended chunk-size property: within `max + 2`, or the strip of a
single sentence unit that alone exceeds the budget. -/
def GoodChunk (text : Str) (max : ℤ) (c : Str) : Prop :=
  (c.length : ℤ) ≤ max + 2 ∨
    ∃ s ∈ allUnits text, c = pyStrip s ∧ max < (s.length : ℤ)

/-- Invariant of the chunker's loop carrying the amended size bound. -/
def GoodState (text : Str) (max : ℤ) (st : ChunkState) : Prop :=
  (∀ c ∈ st.chunks, GoodChunk text max c) ∧
  ((st.current.length : ℤ) ≤ max + 2 ∨
     ∃ s ∈ allUnits text, st.current = s ∧ max < (s.length : ℤ)) ∧
  st.cc = st.current.length

theorem flushGood (text : Str) (max : ℤ) (st : ChunkState)
    (h : GoodState text max st) : ∀ c ∈ flushChunks st, GoodChunk text max c := by
  obtain ⟨hch, hcur, _⟩ := h
  intro c hc
  unfold flushChunks at hc
  by_cases he : st.current.isEmpty
  · rw [if_pos he] at hc
    exact hch c hc
  · rw [if_neg he] at hc
    rcases List.mem_append.mp hc with h1 | h1
    · exact hch c h1
    · simp at h1
      subst h1
      rcases hcur with hle | ⟨s, hs, hcs, hlen⟩
      · left
        calc ((pyStrip st.current).length : ℤ) ≤ (st.current.length : ℤ) := by
              exact_mod_cast pyStrip_length_le st.current
          _ ≤ max + 2 := hle
      · right
        exact ⟨s, hs, by rw [hcs], hlen⟩

theorem stepSentGood (text : Str) (max : ℤ) (st : ChunkState) (s : Str)
    (hs : s ∈ allUnits text) (h : GoodState text max st) :
    GoodState text max (stepSent max st s) := by
  obtain ⟨hch, hcur, hcc⟩ := h
  unfold stepSent
  by_cases hb : (st.cc : ℤ) + s.length > max
  · rw [if_pos hb]
    refine ⟨flushGood text max st ⟨hch, hcur, hcc⟩, ?_, rfl⟩
    by_cases hsl : (s.length : ℤ) ≤ max + 2
    · exact Or.inl hsl
    · right
      exact ⟨s, hs, rfl, by omega⟩
  · rw [if_neg hb]
    push_neg at hb
    refine ⟨hch, ?_, ?_⟩
    · left
      dsimp only
      rw [List.length_append]
      omega
    · dsimp only
      rw [List.length_append, hcc]

theorem stepParaGood (text : Str) (max : ℤ) (hmax : 1 ≤ max) (st : ChunkState)
    (para0 : Str) (h0 : para0 ∈ splitParas text) (h : GoodState text max st) :
    GoodState text max (stepPara max st para0) := by
  unfold stepPara
  by_cases hemp : (pyStrip para0).isEmpty
  · rw [if_pos hemp]
    exact h
  · rw [if_neg hemp]
    have hproc := stripMemProcessed text para0 h0 (Bool.not_eq_true _ ▸ Bool.of_not_eq_true hemp)
    by_cases hbig : ((pyStrip para0).length : ℤ) > max
    · rw [if_pos hbig]
      apply foldlRec (stepSent max) (GoodState text max)
      · by_cases hce : st.current.isEmpty
        · rw [if_pos hce]
          exact h
        · rw [if_neg hce]
          obtain ⟨hch, hcur, hcc⟩ := h
          refine ⟨?_, Or.inl (by simp; omega), rfl⟩
          intro c hc
          rcases List.mem_append.mp hc with h1 | h1
          · exact hch c h1
          · simp at h1
            subst h1
            have := flushGood text max st ⟨hch, hcur, hcc⟩
            apply this
            unfold flushChunks
            rw [if_neg hce]
            simp
      · intro st1 u hu hst1
        exact stepSentGood text max st1 u
          (unitsMemAllUnits text (pyStrip para0) hproc u hu) hst1
    · rw [if_neg hbig]
      push_neg at hbig
      obtain ⟨hch, hcur, hcc⟩ := h
      by_cases hover : (st.cc : ℤ) + (pyStrip para0).length > max
      · rw [if_pos hover]
        exact ⟨flushGood text max st ⟨hch, hcur, hcc⟩, Or.inl (by dsimp only; omega), rfl⟩
      · rw [if_neg hover]
        push_neg at hover
        by_cases hce : st.current.isEmpty
        · rw [if_pos hce]
          exact ⟨hch, Or.inl (by dsimp only; omega), rfl⟩
        · rw [if_neg hce]
          refine ⟨hch, ?_, ?_⟩
          · left
            simp [hcc] at hover ⊢
            omega
          · simp [hcc]
            omega

/-- Claim C1 (amended): for every input text and every maxChars ≥ 1, every
chunk returned by `split_text_smart` has length at most maxChars + 2 —
the paragraph-append check does not count the 2-character blank-line
separator — except a chunk that is the strip of one single sentence unit
that alone exceeds maxChars. -/
theorem c1_chunk_bound (text : Str) (max : ℤ) (hmax : 1 ≤ max) :
    ∀ c ∈ split_text_smart text max,
      (c.length : ℤ) ≤ max + 2 ∨
        ∃ s ∈ allUnits text, c = pyStrip s ∧ max < (s.length : ℤ) := by
  have hfin : GoodState text max ((splitParas text).foldl (stepPara max) ⟨[], [], 0⟩) := by
    apply foldlRec (stepPara max) (GoodState text max)
    · refine ⟨fun c hc => absurd hc (List.not_mem_nil c), Or.inl ?_, rfl⟩
      simp
      omega
    · intro st x hx hst
      exact stepParaGood text max hmax st x hx hst
  intro c hc
  exact flushGood text max _ hfin c hc

/-- Claim C1, counterexample to the claim as stated: with maxChars = 5 the
input "ab\n\ncde" yields the single chunk "ab\n\ncde" of length 7 > 5,
although no sentence unit of the input exceeds the budget — the 2-character
separator is not counted by the paragraph-append check. -/
theorem c1_counterexample :
    split_text_smart (("ab\n\ncde").toList) 5 = [("ab\n\ncde").toList] ∧
    (5 : ℤ) < ((("ab\n\ncde").toList).length : ℤ) ∧
    oversizedUnits (("ab\n\ncde").toList) 5 = [] := by
  refine ⟨by decide, by decide, by decide⟩

/-- Witness for C1: a concrete instantiation of the amended bound. -/
theorem c1_chunk_bound_witness :
    (1 : ℤ) ≤ 3 ∧ ("ab.").toList ∈ split_text_smart (("ab. cd").toList) 3 ∧
      (((("ab.").toList).length : ℤ) ≤ 3 + 2 ∨
        ∃ s ∈ allUnits (("ab. cd").toList),
          ("ab.").toList = pyStrip s ∧ 3 < (s.length : ℤ)) :=
  ⟨by decide, by decide,
    c1_chunk_bound (("ab. cd").toList) 3 (by decide) (("ab.").toList) (by decide)⟩

/-- Invariant of the chunker's loop for claim C9: every emitted chunk is
non-empty and stripped, and a non-empty buffer holds a non-whitespace
character. -/
def CleanState (st : ChunkState) : Prop :=
  (∀ c ∈ st.chunks, c ≠ [] ∧ pyStrip c = c) ∧
  (st.current ≠ [] → ∃ ch ∈ st.current, isSpacePy ch = false)

theorem flushClean (st : ChunkState) (h : CleanState st) :
    ∀ c ∈ flushChunks st, c ≠ [] ∧ pyStrip c = c := by
  obtain ⟨hch, hcur⟩ := h
  intro c hc
  unfold flushChunks at hc
  by_cases he : st.current.isEmpty
  · rw [if_pos he] at hc
    exact hch c hc
  · rw [if_neg he] at hc
    rcases List.mem_append.mp hc with h1 | h1
    · exact hch c h1
    · simp at h1
      subst h1
      have hne : st.current ≠ [] := by
        intro hnil
        rw [hnil] at he
        exact he rfl
      obtain ⟨ch, hch2, hws⟩ := hcur hne
      exact ⟨pyStrip_ne_nil st.current ch hch2 hws, pyStrip_idem st.current⟩

theorem stepSentClean (text : Str) (max : ℤ) (st : ChunkState) (s : Str)
    (hs : s ∈ allUnits text) (h : CleanState st) : CleanState (stepSent max st s) := by
  obtain ⟨hch, hcur⟩ := h
  unfold stepSent
  by_cases hb : (st.cc : ℤ) + s.length > max
  · rw [if_pos hb]
    refine ⟨flushClean st ⟨hch, hcur⟩, ?_⟩
    intro hne
    exact allUnitsNonWS text s hs hne
  · rw [if_neg hb]
    refine ⟨hch, ?_⟩
    intro hne
    dsimp only at hne ⊢
    cases hsc : st.current with
    | nil =>
        rw [hsc, List.nil_append] at hne
        rw [List.nil_append]
        exact allUnitsNonWS text s hs hne
    | cons a t =>
        have h1 : st.current ≠ [] := by rw [hsc]; simp
        obtain ⟨ch, hmem, hws⟩ := hcur h1
        rw [hsc] at hmem
        exact ⟨ch, List.mem_append_left s hmem, hws⟩

theorem stepParaClean (text : Str) (max : ℤ) (st : ChunkState)
    (para0 : Str) (h0 : para0 ∈ splitParas text) (h : CleanState st) :
    CleanState (stepPara max st para0) := by
  unfold stepPara
  by_cases hemp : (pyStrip para0).isEmpty
  · rw [if_pos hemp]
    exact h
  · rw [if_neg hemp]
    have hproc := stripMemProcessed text para0 h0 (Bool.not_eq_true _ ▸ Bool.of_not_eq_true hemp)
    have hpne : pyStrip para0 ≠ [] := by
      intro hnil
      rw [hnil] at hemp
      exact hemp rfl
    have hphead : ∃ ch ∈ pyStrip para0, isSpacePy ch = false := by
      cases hpc : pyStrip para0 with
      | nil => exact absurd hpc hpne
      | cons a t =>
          refine ⟨a, List.mem_cons_self a t, ?_⟩
          apply pyStrip_head_not_space para0
          rw [hpc]
          rfl
    obtain ⟨hch, hcur⟩ := h
    by_cases hbig : ((pyStrip para0).length : ℤ) > max
    · rw [if_pos hbig]
      apply foldlRec (stepSent max) CleanState
      · by_cases hce : st.current.isEmpty
        · rw [if_pos hce]
          exact ⟨hch, hcur⟩
        · rw [if_neg hce]
          refine ⟨?_, by intro hne; exact absurd rfl hne⟩
          intro c hc
          apply flushClean st ⟨hch, hcur⟩
          unfold flushChunks
          rw [if_neg hce]
          exact hc
      · intro st1 u hu hst1
        exact stepSentClean text max st1 u
          (unitsMemAllUnits text (pyStrip para0) hproc u hu) hst1
    · rw [if_neg hbig]
      by_cases hover : (st.cc : ℤ) + (pyStrip para0).length > max
      · rw [if_pos hover]
        exact ⟨flushClean st ⟨hch, hcur⟩, fun _ => hphead⟩
      · rw [if_neg hover]
        by_cases hce : st.current.isEmpty
        · rw [if_pos hce]
          exact ⟨hch, fun _ => hphead⟩
        · rw [if_neg hce]
          refine ⟨hch, ?_⟩
          intro hne
          have h1 : st.current ≠ [] := by
            intro hnil
            rw [hnil] at hce
            exact hce rfl
          obtain ⟨ch, hmem, hws⟩ := hcur h1
          exact ⟨ch, List.mem_append_left _ hmem, hws⟩

/-- Claim C9 (confirmed): for every text and maxChars ≥ 1 every chunk
emitted by `split_text_smart` is non-empty and carries no leading or
trailing whitespace, and a whitespace-only input yields no chunks at all. -/
theorem c9_chunks_nonempty_stripped (text : Str) (max : ℤ) (_hmax : 1 ≤ max) :
    (∀ c ∈ split_text_smart text max, c ≠ [] ∧ pyStrip c = c) ∧
    ((∀ ch ∈ text, isSpacePy ch = true) → split_text_smart text max = []) := by
  constructor
  · have hfin : CleanState ((splitParas text).foldl (stepPara max) ⟨[], [], 0⟩) := by
      apply foldlRec (stepPara max) CleanState
      · exact ⟨fun c hc => absurd hc (List.not_mem_nil c), fun hne => absurd rfl hne⟩
      · intro st x hx hst
        exact stepParaClean text max st x hx hst
    intro c hc
    exact flushClean _ hfin c hc
  · intro hws
    have hkeep : (splitParas text).foldl (stepPara max) ⟨[], [], 0⟩ =
        (⟨[], [], 0⟩ : ChunkState) := by
      apply foldlRec (stepPara max) (fun st => st = ⟨[], [], 0⟩)
      · rfl
      · intro st x hx hst
        have hxall : ∀ c ∈ x, isSpacePy c = true := by
          intro c hc
          exact hws c (splitParasSub (text.length + 1) text x hx c hc)
        have hxs : pyStrip x = [] := pyStrip_nil_of_all_space x hxall
        unfold stepPara
        rw [hxs]
        simp
        exact hst
    unfold split_text_smart
    rw [hkeep]
    rfl

/-- Witness for C9: a concrete instantiation on "ab. cd" with budget 3 and
the whitespace-only input of spaces and newlines. -/
theorem c9_chunks_nonempty_stripped_witness :
    (1 : ℤ) ≤ 3 ∧
    (("ab.").toList ≠ [] ∧ pyStrip (("ab.").toList) = ("ab.").toList) ∧
    split_text_smart (("  \n\n \n ").toList) 3 = [] :=
  ⟨by decide,
    (c9_chunks_nonempty_stripped (("ab. cd").toList) 3 (by decide)).1
      (("ab.").toList) (by decide),
    (c9_chunks_nonempty_stripped (("  \n\n \n ").toList) 3 (by decide)).2 (by decide)⟩

/-- Invariant of the chunker's loop for claim C6: under a non-positive
budget every emitted chunk is the strip of a single sentence unit and the
buffer is empty or holds exactly one unit. -/
def UnitState (text : Str) (st : ChunkState) : Prop :=
  (∀ c ∈ st.chunks, ∃ s ∈ allUnits text, c = pyStrip s) ∧
  (st.current = [] ∨ st.current ∈ allUnits text)

theorem flushUnit (text : Str) (st : ChunkState) (h : UnitState text st) :
    ∀ c ∈ flushChunks st, ∃ s ∈ allUnits text, c = pyStrip s := by
  obtain ⟨hch, hcur⟩ := h
  intro c hc
  unfold flushChunks at hc
  by_cases he : st.current.isEmpty
  · rw [if_pos he] at hc
    exact hch c hc
  · rw [if_neg he] at hc
    rcases List.mem_append.mp hc with h1 | h1
    · exact hch c h1
    · simp at h1
      subst h1
      rcases hcur with hnil | hmem
      · rw [hnil] at he
        exact absurd rfl he
      · exact ⟨st.current, hmem, rfl⟩

theorem stepSentUnit (text : Str) (max : ℤ) (hmax : max ≤ 0) (st : ChunkState)
    (s : Str) (hs : s ∈ allUnits text) (h : UnitState text st) :
    UnitState text (stepSent max st s) := by
  obtain ⟨hch, hcur⟩ := h
  unfold stepSent
  by_cases hb : (st.cc : ℤ) + s.length > max
  · rw [if_pos hb]
    exact ⟨flushUnit text st ⟨hch, hcur⟩, Or.inr hs⟩
  · rw [if_neg hb]
    push_neg at hb
    have hs0 : s = [] := by
      have : s.length = 0 := by omega
      exact List.length_eq_zero.mp this
    refine ⟨hch, ?_⟩
    rw [hs0, List.append_nil]
    exact hcur

theorem stepParaUnit (text : Str) (max : ℤ) (hmax : max ≤ 0) (st : ChunkState)
    (para0 : Str) (h0 : para0 ∈ splitParas text) (h : UnitState text st) :
    UnitState text (stepPara max st para0) := by
  unfold stepPara
  by_cases hemp : (pyStrip para0).isEmpty
  · rw [if_pos hemp]
    exact h
  · rw [if_neg hemp]
    have hproc := stripMemProcessed text para0 h0 (Bool.not_eq_true _ ▸ Bool.of_not_eq_true hemp)
    have hpne : pyStrip para0 ≠ [] := by
      intro hnil
      rw [hnil] at hemp
      exact hemp rfl
    have hbig : ((pyStrip para0).length : ℤ) > max := by
      have h1 : 1 ≤ (pyStrip para0).length := by
        cases hpc : pyStrip para0 with
        | nil => exact absurd hpc hpne
        | cons a t => simp
      omega
    rw [if_pos hbig]
    obtain ⟨hch, hcur⟩ := h
    apply foldlRec (stepSent max) (UnitState text)
    · by_cases hce : st.current.isEmpty
      · rw [if_pos hce]
        exact ⟨hch, hcur⟩
      · rw [if_neg hce]
        refine ⟨?_, Or.inl rfl⟩
        intro c hc
        apply flushUnit text st ⟨hch, hcur⟩
        unfold flushChunks
        rw [if_neg hce]
        exact hc
    · intro st1 u hu hst1
      exact stepSentUnit text max hmax st1 u
        (unitsMemAllUnits text (pyStrip para0) hproc u hu) hst1

/-- Claim C6 (amended): `split_text_smart` does not validate its budget:
for maxChars ≤ 0 it still returns a result, every chunk of which is the
strip of one single sentence unit of the input. -/
theorem c6_nonpositive_budget (text : Str) (max : ℤ) (hmax : max ≤ 0) :
    ∀ c ∈ split_text_smart text max, ∃ s ∈ allUnits text, c = pyStrip s := by
  have hfin : UnitState text ((splitParas text).foldl (stepPara max) ⟨[], [], 0⟩) := by
    apply foldlRec (stepPara max) (UnitState text)
    · exact ⟨fun c hc => absurd hc (List.not_mem_nil c), Or.inl rfl⟩
    · intro st x hx hst
      exact stepParaUnit text max hmax st x hx hst
  intro c hc
  exact flushUnit text _ hfin c hc

/-- Claim C6, counterexample to the claim as stated: `split_text_smart`
called with maxChars = 0 does not fail with an invalid-argument error but
returns the chunk list ["ab"]. -/
theorem c6_counterexample :
    split_text_smart (("ab").toList) 0 = [("ab").toList] := by
  decide

/-- Witness for C6: a concrete instantiation of the amended statement. -/
theorem c6_nonpositive_budget_witness :
    (0 : ℤ) ≤ 0 ∧ ("ab").toList ∈ split_text_smart (("ab").toList) 0 ∧
      ∃ s ∈ allUnits (("ab").toList), ("ab").toList = pyStrip s :=
  ⟨by decide, by decide,
    c6_nonpositive_budget (("ab").toList) 0 (by decide) (("ab").toList) (by decide)⟩

/-- Claim C7 (confirmed): the range parser returns the union of all token
contributions, deduplicated and sorted strictly ascending; a reversed range
yields an empty contribution, a malformed token is skipped without aborting
the remaining tokens, and the spec's concrete examples hold. -/
theorem c7_range_selection :
    (∀ arg : Str, (parse_chapter_arg arg).Sorted (· < ·)) ∧
    (∀ (arg : Str) (x : ℤ), x ∈ parse_chapter_arg arg ↔ x ∈ rawChapters arg) ∧
    parse_chapter_arg (("7,8,10-12").toList) = [7, 8, 10, 11, 12] ∧
    parse_chapter_arg (("5-3").toList) = [] ∧
    parse_chapter_arg (("abc").toList) = [] ∧
    parse_chapter_arg (("3,abc,5-4,6").toList) = [3, 6] := by
  refine ⟨?_, ?_, by decide, by decide, by decide, by decide⟩
  · intro arg
    exact (pySortedSet_sorted (rawChapters arg)).lt_of_le
      (pySortedSet_nodup (rawChapters arg))
  · intro arg x
    exact pySortedSet_mem (rawChapters arg) x

/-- The decimal digit characters, by value. -/
def digitChar (d : ℕ) : Char :=
  match d with
  | 0 => '0' | 1 => '1' | 2 => '2' | 3 => '3' | 4 => '4'
  | 5 => '5' | 6 => '6' | 7 => '7' | 8 => '8' | _ => '9'

/-- Fuel-driven decimal printer (most significant digit first). -/
def natToDigitsF : ℕ → ℕ → Str
  | 0, _ => []
  | fuel + 1, n =>
      if n < 10 then [digitChar n]
      else natToDigitsF fuel (n / 10) ++ [digitChar (n % 10)]

/-- The usual decimal representation of a natural number. -/
def natToDigits (n : ℕ) : Str := natToDigitsF (n + 1) n

theorem digitCharVal (d : ℕ) (hd : d < 10) :
    (digitChar d).toNat - 48 = d ∧ isDigitPy (digitChar d) = true := by
  interval_cases d <;> exact ⟨by decide, by decide⟩

theorem base10Append (l : Str) (c : Char) :
    base10 (l ++ [c]) = 10 * base10 l + (c.toNat - 48) := by
  unfold base10
  rw [List.foldl_append]
  rfl

theorem natToDigitsSpec :
    ∀ (fuel n : ℕ), n < fuel →
      base10 (natToDigitsF fuel n) = n ∧
      (natToDigitsF fuel n).all isDigitPy = true ∧
      natToDigitsF fuel n ≠ [] := by
  intro fuel
  induction fuel with
  | zero => intro n hn; omega
  | succ fuel ih =>
      intro n hn
      unfold natToDigitsF
      by_cases h10 : n < 10
      · rw [if_pos h10]
        obtain ⟨hv, hd⟩ := digitCharVal n h10
        refine ⟨?_, ?_, by simp⟩
        · unfold base10
          simp [hv]
        · simp [hd]
      · rw [if_neg h10]
        have hdiv : n / 10 < fuel := by
          have h1 : n / 10 < n := Nat.div_lt_self (by omega) (by omega)
          omega
        obtain ⟨ihv, ihd, ihne⟩ := ih (n / 10) hdiv
        have hmod : n % 10 < 10 := Nat.mod_lt n (by omega)
        obtain ⟨hv, hd⟩ := digitCharVal (n % 10) hmod
        refine ⟨?_, ?_, by simp⟩
        · rw [base10Append, ihv, hv]
          omega
        · rw [List.all_append, ihd]
          simp [hd]

theorem stripOfAllDigits (s : Str) (h : s.all isDigitPy = true) : pyStrip s = s := by
  have hnw : ∀ c, ∀ hc : c ∈ s, isSpacePy c = false := by
    intro c hc
    have hd : isDigitPy c = true := by
      rw [List.all_eq_true] at h
      exact h c hc
    unfold isDigitPy at hd
    simp at hd
    unfold isSpacePy
    obtain ⟨h1, h2⟩ := hd
    have hn1 : ¬c = ' ' := by intro he; subst he; exact absurd h1 (by decide)
    have hn2 : ¬c = '\t' := by intro he; subst he; exact absurd h1 (by decide)
    have hn3 : ¬c = '\n' := by intro he; subst he; exact absurd h1 (by decide)
    have hn4 : ¬c = '\r' := by intro he; subst he; exact absurd h1 (by decide)
    have hn5 : ¬c = '\x0b' := by intro he; subst he; exact absurd h1 (by decide)
    have hn6 : ¬c = '\x0c' := by intro he; subst he; exact absurd h1 (by decide)
    simp [hn1, hn2, hn3, hn4, hn5, hn6]
  have h1 : s.dropWhile isSpacePy = s := by
    apply dropWhileEqSelf
    intro c hc
    cases s with
    | nil => simp at hc
    | cons a t =>
        simp at hc
        rw [← hc]
        exact hnw a (List.mem_cons_self a t)
  show (((s.dropWhile isSpacePy).reverse).dropWhile isSpacePy).reverse = s
  rw [h1]
  have h2 : (s.reverse).dropWhile isSpacePy = s.reverse := by
    apply dropWhileEqSelf
    intro c hc
    cases hr : s.reverse with
    | nil => rw [hr] at hc; simp at hc
    | cons a t =>
        rw [hr] at hc
        simp at hc
        rw [← hc]
        apply hnw a
        rw [← List.mem_reverse, hr]
        exact List.mem_cons_self a t
  rw [h2, List.reverse_reverse]

theorem lookupMemChar :
    ∀ (l : List (Char × Char)) (a b : Char), l.lookup a = some b → (a, b) ∈ l := by
  intro l
  induction l with
  | nil => intro a b h; simp [List.lookup] at h
  | cons p rest ih =>
      intro a b h
      obtain ⟨k, v⟩ := p
      rw [List.lookup] at h
      by_cases hk : a == k
      · rw [hk] at h
        simp at h
        have ha : a = k := by
          have := beq_iff_eq.mp hk
          exact this
        rw [ha, h]
        exact List.mem_cons_self _ _
      · rw [Bool.not_eq_true] at hk
        rw [hk] at h
        exact List.mem_cons_of_mem _ (ih a b h)

theorem toUpperPyIdem (c : Char) : toUpperPy (toUpperPy c) = toUpperPy c := by
  unfold toUpperPy
  cases h : upperPairs.lookup c with
  | none => simp [h]
  | some u =>
      have hmem : (c, u) ∈ upperPairs := lookupMemChar upperPairs c u h
      have hall : ∀ p ∈ upperPairs, upperPairs.lookup p.2 = none := by decide
      simp [hall (c, u) hmem]

/-- Claim C4 (amended): an all-digit token resolves as a base-10 integer;
otherwise Roman decomposition iterates right to left, subtracting a
character's value when it is smaller than the value of the PREVIOUS
(right-adjacent) character — not the running maximum — and adding it
otherwise; the standard examples and case-insensitivity hold. -/
theorem c4_number_resolution :
    (∀ n : ℕ, parse_chapter_number (natToDigits n) = n) ∧
    (∀ s : Str, roman_to_int (s.map toUpperPy) = roman_to_int s) ∧
    roman_to_int (("IV").toList) = 4 ∧
    roman_to_int (("IX").toList) = 9 ∧
    roman_to_int (("XL").toList) = 40 ∧
    roman_to_int (("MCMXCIV").toList) = 1994 ∧
    roman_to_int (("mcmxciv").toList) = 1994 := by
  refine ⟨?_, ?_, by decide, by decide, by decide, by decide, by decide⟩
  · intro n
    obtain ⟨hv, hd, hne⟩ := natToDigitsSpec (n + 1) n (by omega)
    rw [show natToDigitsF (n + 1) n = natToDigits n from rfl] at hv hd hne
    unfold parse_chapter_number
    rw [stripOfAllDigits (natToDigits n) hd]
    have hcond : (!(natToDigits n).isEmpty && (natToDigits n).all isDigitPy) = true := by
      rw [hd]
      cases hc : natToDigits n with
      | nil => exact absurd hc hne
      | cons a t => rfl
    rw [if_pos hcond, hv]
  · intro s
    unfold roman_to_int
    rw [List.map_map]
    have : (toUpperPy ∘ toUpperPy) = toUpperPy := by
      funext c
      exact toUpperPyIdem c
    rw [this]

/-- Claim C4, counterexample to the claim as stated: on the token "VIX" the
code's previous-character rule gives 14, while the running-maximum rule the
claim describes gives 4. -/
theorem c4_counterexample :
    roman_to_int (("VIX").toList) = 14 ∧ romanSpecMax (("VIX").toList) = 4 ∧
    roman_to_int (("VIX").toList) ≠ romanSpecMax (("VIX").toList) := by
  refine ⟨by decide, by decide, by decide⟩

/-- Claim C2 (amended): a candidate survives TOC filtering exactly when its
trimmed trailing window (to the next candidate's start, or the end of the
document) is LONGER than 200 characters; a window of exactly 200 characters
is discarded, one of 201 characters is kept. -/
theorem c2_toc_threshold :
    (∀ (text : Str) (c : Chap) (rest : List Chap),
      tocFilter text (c :: rest) =
        if 200 < (pyStrip (pySlice text c.2.2 (nextStartOf text rest))).length then
          c :: tocFilter text rest
        else tocFilter text rest) ∧
    find_chapters (tWin 199) = [] ∧
    find_chapters (tWin 200) = [] ∧
    find_chapters (tWin 201) = [(1, 0, 10)] := by
  refine ⟨?_, by decide, by decide, by decide⟩
  intro text c rest
  rfl

/-- Claim C2, counterexample to the claim as stated: in the text
"Chapter 1\n" followed by 200 'a's, the single candidate (1, 0, 10) has a
trimmed trailing window of exactly 200 characters, yet it is discarded
(`find_chapters` returns the empty list), while the claim says a
200-character window is kept. -/
theorem c2_counterexample :
    sortedCands (tWin 200) = [(1, 0, 10)] ∧
    (pyStrip (pySlice (tWin 200) 10 (nextStartOf (tWin 200) []))).length = 200 ∧
    find_chapters (tWin 200) = [] := by
  refine ⟨by decide, by decide, by decide⟩

theorem boundsAuxMap (fin : ℕ) :
    ∀ l : List Chap,
      (boundsAux fin l).map (fun c => (c.1, c.2.1)) = l.map (fun c => (c.1, c.2.1))
  | [] => rfl
  | [c] => rfl
  | c :: d :: rest => by
      have ih := boundsAuxMap fin (d :: rest)
      rw [show boundsAux fin (c :: d :: rest) =
        (c.1, c.2.1, d.2.1) :: boundsAux fin (d :: rest) from rfl]
      rw [List.map_cons, ih]
      rfl

theorem boundsAuxStart (fin : ℕ) (l : List Chap) (y : Chap) (hy : y ∈ boundsAux fin l) :
    y.2.1 ∈ l.map (fun c => c.2.1) := by
  have h1 : (y.1, y.2.1) ∈ (boundsAux fin l).map (fun c => (c.1, c.2.1)) :=
    List.mem_map_of_mem _ hy
  rw [boundsAuxMap fin l] at h1
  rw [List.mem_map] at h1
  obtain ⟨c, hc, hcy⟩ := h1
  rw [List.mem_map]
  exact ⟨c, hc, congrArg Prod.snd hcy⟩

theorem boundsAuxChain (fin : ℕ) :
    ∀ l : List Chap, List.Chain' (fun a b => a.2.2 = b.2.1) (boundsAux fin l)
  | [] => List.chain'_nil
  | [c] => by
      rw [show boundsAux fin [c] = [(c.1, c.2.1, fin)] from rfl]
      exact List.chain'_singleton _
  | c :: d :: rest => by
      have ih := boundsAuxChain fin (d :: rest)
      cases rest with
      | nil =>
          rw [show boundsAux fin [c, d] =
            [(c.1, c.2.1, d.2.1), (d.1, d.2.1, fin)] from rfl]
          exact List.chain'_pair.mpr rfl
      | cons e rest2 =>
          rw [show boundsAux fin (c :: d :: e :: rest2) =
            (c.1, c.2.1, d.2.1) :: boundsAux fin (d :: e :: rest2) from rfl]
          rw [show boundsAux fin (d :: e :: rest2) =
            (d.1, d.2.1, e.2.1) :: boundsAux fin (e :: rest2) from rfl] at ih ⊢
          exact (List.chain'_cons.mpr ⟨rfl, ih⟩)

theorem pairwiseByStartIff (m : List Chap) :
    m.Pairwise byStart ↔ (m.map (fun c => c.2.1)).Pairwise (· ≤ ·) := by
  rw [List.pairwise_map]
  exact Iff.rfl

theorem boundsAuxSorted (fin : ℕ) (l : List Chap) (h : l.Sorted byStart) :
    (boundsAux fin l).Sorted byStart := by
  have hmap : (boundsAux fin l).map (fun c => c.2.1) = l.map (fun c => c.2.1) := by
    have h2 := congrArg (List.map Prod.snd) (boundsAuxMap fin l)
    rw [List.map_map, List.map_map] at h2
    exact h2
  show (boundsAux fin l).Pairwise byStart
  rw [pairwiseByStartIff, hmap, ← pairwiseByStartIff]
  exact h

theorem boundsAuxPairwise (fin : ℕ) :
    ∀ l : List Chap, l.Sorted byStart →
      (boundsAux fin l).Pairwise (fun a b => a.2.2 ≤ b.2.1)
  | [], _ => List.Pairwise.nil
  | [c], _ => by
      rw [show boundsAux fin [c] = [(c.1, c.2.1, fin)] from rfl]
      exact List.pairwise_singleton _ _
  | c :: d :: rest, h => by
      have htail : (d :: rest).Sorted byStart := (List.sorted_cons.mp h).2
      have ih := boundsAuxPairwise fin (d :: rest) htail
      rw [show boundsAux fin (c :: d :: rest) =
        (c.1, c.2.1, d.2.1) :: boundsAux fin (d :: rest) from rfl]
      apply List.Pairwise.cons
      · intro y hy
        have hstart := boundsAuxStart fin (d :: rest) y hy
        rw [List.map_cons, List.mem_cons] at hstart
        show d.2.1 ≤ y.2.1
        rcases hstart with h1 | h1
        · rw [← h1]
        · rw [List.mem_map] at h1
          obtain ⟨u, hu, huy⟩ := h1
          have := (List.sorted_cons.mp htail).1 u hu
          rw [← huy]
          exact this
      · exact ih

theorem boundsAuxGetLast (fin : ℕ) :
    ∀ l : List Chap, ∀ e : Chap, (boundsAux fin l).getLast? = some e → e.2.2 = fin
  | [], e, h => by simp [boundsAux] at h
  | [c], e, h => by
      rw [show boundsAux fin [c] = [(c.1, c.2.1, fin)] from rfl] at h
      simp at h
      rw [← h]
  | c :: d :: rest, e, h => by
      apply boundsAuxGetLast fin (d :: rest) e
      cases rest with
      | nil =>
          rw [show boundsAux fin [c, d] =
            (c.1, c.2.1, d.2.1) :: boundsAux fin [d] from rfl,
            show boundsAux fin [d] = [(d.1, d.2.1, fin)] from rfl,
            List.getLast?_cons_cons] at h
          rw [show boundsAux fin [d] = [(d.1, d.2.1, fin)] from rfl]
          exact h
      | cons e2 rest2 =>
          rw [show boundsAux fin (c :: d :: e2 :: rest2) =
            (c.1, c.2.1, d.2.1) :: boundsAux fin (d :: e2 :: rest2) from rfl,
            show boundsAux fin (d :: e2 :: rest2) =
              (d.1, d.2.1, e2.2.1) :: boundsAux fin (e2 :: rest2) from rfl,
            List.getLast?_cons_cons] at h
          rw [show boundsAux fin (d :: e2 :: rest2) =
            (d.1, d.2.1, e2.2.1) :: boundsAux fin (e2 :: rest2) from rfl]
          exact h

/-- Claim C3 (confirmed): the chapter spans (the bounds built by
`extract_chapters` from the locator's output) are sorted ascending by start
offset, pairwise non-overlapping, each span's end equals the next span's
start, and the last span ends at the document length. -/
theorem c3_span_invariants (text : Str) :
    (chapterBoundsList text).Sorted byStart ∧
    List.Chain' (fun a b => a.2.2 = b.2.1) (chapterBoundsList text) ∧
    (chapterBoundsList text).Pairwise (fun a b => a.2.2 ≤ b.2.1) ∧
    (∀ e : Chap, (chapterBoundsList text).getLast? = some e → e.2.2 = text.length) := by
  have hs : (find_chapters text).Sorted byStart := List.sorted_insertionSort byStart _
  exact ⟨boundsAuxSorted text.length _ hs, boundsAuxChain text.length _,
    boundsAuxPairwise text.length _ hs,
    fun e he => boundsAuxGetLast text.length (find_chapters text) e he⟩

/-- Witness for C3: the two-chapter fixture; its last span ends at the
document length 423. -/
theorem c3_span_invariants_witness :
    (chapterBoundsList twoChapText).getLast? = some ((2 : ℤ), 211, 423) ∧
    ((2 : ℤ), 211, 423).2.2 = twoChapText.length :=
  ⟨by decide,
    (c3_span_invariants twoChapText).2.2.2 ((2 : ℤ), 211, 423) (by decide)⟩

/-- The keys of the dedup dict, in insertion order. -/
def keysOf (d : List (ℤ × Chap)) : List ℤ := d.map (fun kv => kv.1)

theorem dictSetMem :
    ∀ (d : List (ℤ × Chap)) (k : ℤ) (v : Chap), (keysOf d).Nodup →
      ∀ (k1 : ℤ) (v1 : Chap),
        (k1, v1) ∈ dictSet d k v ↔ (k1 = k ∧ v1 = v) ∨ ((k1, v1) ∈ d ∧ k1 ≠ k) := by
  intro d
  induction d with
  | nil =>
      intro k v _ k1 v1
      simp [dictSet]
  | cons p rest ih =>
      intro k v hnd k1 v1
      obtain ⟨k2, v2⟩ := p
      have hk2 : k2 ∉ keysOf rest := by
        unfold keysOf at hnd
        rw [List.map_cons, List.nodup_cons] at hnd
        exact hnd.1
      have hrest : (keysOf rest).Nodup := by
        unfold keysOf at hnd
        rw [List.map_cons, List.nodup_cons] at hnd
        exact hnd.2
      unfold dictSet
      by_cases he : k2 = k
      · rw [if_pos he]
        subst he
        constructor
        · intro h
          rcases List.mem_cons.mp h with h1 | h1
          · simp at h1
            exact Or.inl ⟨h1.1, h1.2⟩
          · right
            have hne : k1 ≠ k2 := by
              intro heq
              apply hk2
              subst heq
              unfold keysOf
              rw [List.mem_map]
              exact ⟨(k1, v1), h1, rfl⟩
            exact ⟨List.mem_cons_of_mem _ h1, hne⟩
        · intro h
          rcases h with ⟨h1, h2⟩ | ⟨h1, h2⟩
          · subst h1 h2
            exact List.mem_cons_self _ _
          · rcases List.mem_cons.mp h1 with h3 | h3
            · simp at h3
              exact absurd h3.1 h2
            · exact List.mem_cons_of_mem _ h3
      · rw [if_neg he]
        constructor
        · intro h
          rcases List.mem_cons.mp h with h1 | h1
          · simp at h1
            right
            refine ⟨?_, ?_⟩
            · rw [h1.1, h1.2]
              exact List.mem_cons_self _ _
            · rw [h1.1]
              exact he
          · rcases (ih k v hrest k1 v1).mp h1 with h2 | ⟨h2, h3⟩
            · exact Or.inl h2
            · exact Or.inr ⟨List.mem_cons_of_mem _ h2, h3⟩
        · intro h
          rcases h with ⟨h1, h2⟩ | ⟨h1, h2⟩
          · apply List.mem_cons_of_mem
            rw [h1, h2]
            exact (ih k v hrest k v).mpr (Or.inl ⟨rfl, rfl⟩)
          · rcases List.mem_cons.mp h1 with h3 | h3
            · simp at h3
              rw [h3.1, h3.2]
              exact List.mem_cons_self _ _
            · apply List.mem_cons_of_mem
              exact (ih k v hrest k1 v1).mpr (Or.inr ⟨h3, h2⟩)

theorem dictSetKeys :
    ∀ (d : List (ℤ × Chap)) (k : ℤ) (v : Chap),
      keysOf (dictSet d k v) =
        if k ∈ keysOf d then keysOf d else keysOf d ++ [k] := by
  intro d
  induction d with
  | nil => intro k v; simp [dictSet, keysOf]
  | cons p rest ih =>
      intro k v
      obtain ⟨k2, v2⟩ := p
      unfold dictSet
      by_cases he : k2 = k
      · rw [if_pos he]
        subst he
        have hmem : k2 ∈ keysOf ((k2, v2) :: rest) := by
          unfold keysOf
          rw [List.map_cons]
          exact List.mem_cons_self _ _
        rw [if_pos hmem]
        rfl
      · rw [if_neg he]
        have hkeys : keysOf ((k2, v2) :: dictSet rest k v) = k2 :: keysOf (dictSet rest k v) := rfl
        have hkeys2 : keysOf ((k2, v2) :: rest) = k2 :: keysOf rest := rfl
        rw [hkeys, hkeys2, ih k v]
        by_cases hk : k ∈ keysOf rest
        · rw [if_pos hk, if_pos (List.mem_cons_of_mem _ hk)]
        · rw [if_neg hk, if_neg ?_]
          · rfl
          · intro hc
            rcases List.mem_cons.mp hc with h1 | h1
            · exact he h1.symm
            · exact hk h1

theorem dictSetNodup (d : List (ℤ × Chap)) (k : ℤ) (v : Chap)
    (h : (keysOf d).Nodup) : (keysOf (dictSet d k v)).Nodup := by
  rw [dictSetKeys]
  by_cases hk : k ∈ keysOf d
  · rw [if_pos hk]
    exact h
  · rw [if_neg hk]
    rw [List.nodup_append]
    refine ⟨h, List.nodup_singleton k, ?_⟩
    intro a ha hb
    rw [List.mem_singleton] at hb
    subst hb
    exact hk ha

theorem seenFoldAppend (l : List Chap) (x : Chap) :
    seenFold (l ++ [x]) = dictSet (seenFold l) x.1 x := by
  unfold seenFold
  rw [List.foldl_append]
  rfl

theorem seenFoldSpec (l : List Chap) (hsort : l.Sorted byStart) :
    (keysOf (seenFold l)).Nodup ∧
    (∀ (k : ℤ) (v : Chap), (k, v) ∈ seenFold l →
      v.1 = k ∧ v ∈ l ∧ (∀ u ∈ l, u.1 = k → u.2.1 ≤ v.2.1)) ∧
    (∀ u ∈ l, ∃ w, (u.1, w) ∈ seenFold l) := by
  induction l using List.reverseRecOn with
  | nil =>
      refine ⟨by simp [seenFold, keysOf], ?_, ?_⟩
      · intro k v h
        simp [seenFold] at h
      · intro u hu
        simp at hu
  | append_singleton l x ih =>
      obtain ⟨hsl, _, hrel⟩ := List.pairwise_append.mp hsort
      obtain ⟨ihnd, ihent, ihcov⟩ := ih hsl
      rw [seenFoldAppend]
      refine ⟨dictSetNodup _ _ _ ihnd, ?_, ?_⟩
      · intro k v hkv
        rcases (dictSetMem (seenFold l) x.1 x ihnd k v).mp hkv with ⟨h1, h2⟩ | ⟨h1, h2⟩
        · rw [h1, h2]
          refine ⟨rfl, List.mem_append_right l (List.mem_cons_self _ _), ?_⟩
          intro u hu _
          rcases List.mem_append.mp hu with h3 | h3
          · exact hrel u h3 x (List.mem_singleton.mpr rfl)
          · rw [List.mem_singleton] at h3
            rw [h3]
        · obtain ⟨hv1, hvl, hmax⟩ := ihent k v h1
          refine ⟨hv1, List.mem_append_left _ hvl, ?_⟩
          intro u hu hk
          rcases List.mem_append.mp hu with h3 | h3
          · exact hmax u h3 hk
          · rw [List.mem_singleton] at h3
            subst h3
            exact absurd hk h2.symm
      · intro u hu
        rcases List.mem_append.mp hu with h3 | h3
        · obtain ⟨w, hw⟩ := ihcov u h3
          by_cases hux : u.1 = x.1
          · refine ⟨x, ?_⟩
            rw [hux]
            exact (dictSetMem (seenFold l) x.1 x ihnd x.1 x).mpr (Or.inl ⟨rfl, rfl⟩)
          · exact ⟨w, (dictSetMem (seenFold l) x.1 x ihnd u.1 w).mpr (Or.inr ⟨hw, hux⟩)⟩
        · rw [List.mem_singleton] at h3
          subst h3
          exact ⟨u, (dictSetMem (seenFold l) u.1 u ihnd u.1 u).mpr (Or.inl ⟨rfl, rfl⟩)⟩

theorem tocFilterSublist (text : Str) :
    ∀ l : List Chap, List.Sublist (tocFilter text l) l := by
  intro l
  induction l with
  | nil => exact List.Sublist.refl []
  | cons c rest ih =>
      unfold tocFilter
      by_cases hc :
          200 < (pyStrip (pySlice text c.2.2 (nextStartOf text rest))).length
      · rw [if_pos hc]
        exact List.Sublist.cons₂ c ih
      · rw [if_neg hc]
        exact List.Sublist.cons c ih

theorem validChaptersSorted (text : Str) : (validChapters text).Sorted byStart :=
  List.Pairwise.sublist (tocFilterSublist text (sortedCands text))
    (List.sorted_insertionSort byStart (candidates text))

/-- Claim C5 (confirmed): among the candidates surviving TOC filtering, each
distinct chapter number contributes exactly one entry to `find_chapters`,
namely an occurrence with the greatest start offset; chapter numbers are
unique in the output, and every surviving number appears. -/
theorem c5_dedup_last_wins (text : Str) :
    ((find_chapters text).map (fun c => c.1)).Nodup ∧
    (∀ e ∈ find_chapters text, e ∈ validChapters text) ∧
    (∀ e ∈ find_chapters text, ∀ v ∈ validChapters text, v.1 = e.1 → v.2.1 ≤ e.2.1) ∧
    (∀ v ∈ validChapters text, ∃ e ∈ find_chapters text, e.1 = v.1) := by
  obtain ⟨hnd, hent, hcov⟩ := seenFoldSpec (validChapters text) (validChaptersSorted text)
  have hperm : List.Perm (find_chapters text)
      ((seenFold (validChapters text)).map (fun kv => kv.2)) :=
    List.perm_insertionSort byStart _
  have hmemfind : ∀ e : Chap, e ∈ find_chapters text ↔
      ∃ k : ℤ, (k, e) ∈ seenFold (validChapters text) := by
    intro e
    rw [hperm.mem_iff, List.mem_map]
    constructor
    · intro ⟨kv, hkv, hkve⟩
      exact ⟨kv.1, by rw [show kv = (kv.1, kv.2) from rfl] at hkv; rw [hkve] at hkv; exact hkv⟩
    · intro ⟨k, hk⟩
      exact ⟨(k, e), hk, rfl⟩
  refine ⟨?_, ?_, ?_, ?_⟩
  · have hmapeq : ((seenFold (validChapters text)).map (fun kv => kv.2)).map
        (fun c : Chap => c.1) = keysOf (seenFold (validChapters text)) := by
      rw [List.map_map]
      apply List.map_congr_left
      intro kv hkv
      exact (hent kv.1 kv.2 (by rw [show (kv.1, kv.2) = kv from rfl]; exact hkv)).1
    have hpm := hperm.map (fun c : Chap => c.1)
    rw [hmapeq] at hpm
    exact (hpm.nodup_iff).mpr hnd
  · intro e he
    obtain ⟨k, hk⟩ := (hmemfind e).mp he
    exact (hent k e hk).2.1
  · intro e he v hv hvnum
    obtain ⟨k, hk⟩ := (hmemfind e).mp he
    obtain ⟨hek, _, hmax⟩ := hent k e hk
    exact hmax v hv (by rw [hvnum, hek])
  · intro v hv
    obtain ⟨w, hw⟩ := hcov v hv
    have hw1 : w.1 = v.1 := (hent v.1 w hw).1
    exact ⟨w, (hmemfind w).mpr ⟨v.1, hw⟩, hw1⟩

/-- Witness for C5: in the two-chapter fixture the entry (2, 211, 222) is in
the locator's output, lies among the TOC survivors, and no survivor with
number 2 starts later. -/
theorem c5_dedup_last_wins_witness :
    ((find_chapters twoChapText).map (fun c => c.1)).Nodup ∧
    ((2 : ℤ), 211, 222) ∈ validChapters twoChapText ∧
    (211 : ℕ) ≤ 211 :=
  ⟨(c5_dedup_last_wins twoChapText).1,
    (c5_dedup_last_wins twoChapText).2.1 ((2 : ℤ), 211, 222) (by decide),
    (c5_dedup_last_wins twoChapText).2.2.1 ((2 : ℤ), 211, 222) (by decide)
      ((2 : ℤ), 211, 222) (by decide) rfl⟩

theorem extractLoopEq (text : Str) (bounds : List Chap) :
    ∀ (l : List ℤ) (acc : List Str × List ℤ),
      extractLoop text bounds acc l =
        (acc.1 ++ l.filterMap (fun n => (lookupNum bounds n).map
            (fun se => pyStrip (pySlice text se.1 se.2))),
         acc.2 ++ l.filter (fun n => (lookupNum bounds n).isNone))
  | [], acc => by simp [extractLoop]
  | n :: rest, acc => by
      rw [extractLoop]
      cases hl : lookupNum bounds n with
      | some se =>
          dsimp only
          rw [extractLoopEq text bounds rest
            (acc.1 ++ [pyStrip (pySlice text se.1 se.2)], acc.2)]
          simp [hl]
      | none =>
          dsimp only
          rw [extractLoopEq text bounds rest (acc.1, acc.2 ++ [n])]
          simp [hl]

/-- Claim C8 (amended): when the locator finds at least one chapter,
extraction does not fail: the result is exactly the found requested
chapters (ascending, blank-line joined) and the numbers reported missing
are exactly the requested numbers with no located span; when the locator
finds nothing, the whole text is returned instead. -/
theorem c8_missing_chapters (text : Str) (nums : List ℤ)
    (h : find_chapters text ≠ []) :
    (extract_chapters text nums).1 = sepBlank.intercalate (extractedPieces text nums) ∧
    (extract_chapters text nums).2 = missingNums text nums := by
  unfold extract_chapters
  rw [if_neg h, extractLoopEq]
  unfold extractedPieces missingNums
  simp

/-- Claim C8, counterexample to the claim as stated: on a text with no
chapter markers at all, every requested chapter is missing, yet
`extract_chapters` returns the full text and reports no per-number
warning — not the empty content of the (empty) found subset. -/
theorem c8_counterexample :
    find_chapters (("hello").toList) = [] ∧
    extract_chapters (("hello").toList) [1] = (("hello").toList, []) ∧
    (("hello").toList : Str) ≠ [] :=
  ⟨by decide, by decide, by decide⟩

/-- Witness for C8: the two-chapter fixture with request 2, 1, 9 reports
exactly the missing chapter 9. -/
theorem c8_missing_chapters_witness :
    (extract_chapters twoChapText [2, 1, 9]).2 = missingNums twoChapText [2, 1, 9] ∧
    missingNums twoChapText [2, 1, 9] = [9] :=
  ⟨(c8_missing_chapters twoChapText [2, 1, 9] (by decide)).2, by decide⟩

/-- Claim C10 (amended): when the locator finds at least one chapter, the
extractor emits the found requested chapters in ascending chapter-number
order, each stripped of surrounding whitespace, joined by exactly one blank
line. -/
theorem c10_extract_order (text : Str) (nums : List ℤ)
    (h : find_chapters text ≠ []) :
    (extract_chapters text nums).1 = sepBlank.intercalate (extractedPieces text nums) ∧
    (foundNums text nums).Sorted (· ≤ ·) ∧
    (∀ p ∈ extractedPieces text nums, pyStrip p = p) := by
  refine ⟨?_, ?_, ?_⟩
  · unfold extract_chapters
    rw [if_neg h, extractLoopEq]
    unfold extractedPieces
    simp
  · exact List.Pairwise.sublist (List.filter_sublist _)
      (List.sorted_insertionSort (· ≤ ·) nums)
  · intro p hp
    unfold extractedPieces at hp
    rw [List.mem_filterMap] at hp
    obtain ⟨n, _, hn⟩ := hp
    cases hl : lookupNum (chapterBoundsList text) n with
    | none => rw [hl] at hn; simp at hn
    | some se =>
        rw [hl] at hn
        simp at hn
        rw [← hn]
        exact pyStrip_idem _

/-- Claim C10, counterexample to the claim as stated: with no chapters
located, the extractor returns the full text rather than the blank-line
join of the (empty) list of found chapters. -/
theorem c10_counterexample :
    find_chapters (("xy").toList) = [] ∧
    (extract_chapters (("xy").toList) [2]).1 = ("xy").toList ∧
    extractedPieces (("xy").toList) [2] = [] ∧
    ("xy").toList ≠ sepBlank.intercalate (extractedPieces (("xy").toList) [2]) :=
  ⟨by decide, by decide, by decide, by decide⟩

/-- Witness for C10: the two-chapter fixture with request 2, 1, 9 finds
chapters 1 and 2, in ascending order. -/
theorem c10_extract_order_witness :
    (extract_chapters twoChapText [2, 1, 9]).1 =
      sepBlank.intercalate (extractedPieces twoChapText [2, 1, 9]) ∧
    (foundNums twoChapText [2, 1, 9]).Sorted (· ≤ ·) ∧
    foundNums twoChapText [2, 1, 9] = [1, 2] :=
  ⟨(c10_extract_order twoChapText [2, 1, 9] (by decide)).1,
   (c10_extract_order twoChapText [2, 1, 9] (by decide)).2.1,
   by decide⟩
